import Mathlib

/-!
# Verification of the minigrep (lilgrep) core

Shallow embedding of `src/lib.rs` of the `lilgrep` crate: the pure line
matcher (`search`, `search_case_insensitive`, both built on Rust's
`str::lines` and `str::contains`) and the configuration resolver
(`Config::build`).

Strings manipulated character-wise (file contents, queries, lines) are
modelled as `List Char`; argument vectors are modelled as `List String`.
The environment probe `env::var("IGNORE_CASE").is_ok()` is passed in as an
explicit boolean.
-/

namespace Lilgrep

/-- Rust `str::split_inclusive('\n')` on a character list: splits into
chunks, each chunk keeping its terminating newline; the final chunk may
lack one; the empty string yields no chunks. -/
def splitInclusiveNL : List Char → List (List Char)
  | [] => []
  | c :: rest =>
    if c = '\n' then ['\n'] :: splitInclusiveNL rest
    else
      match splitInclusiveNL rest with
      | [] => [[c]]
      | chunk :: chunks => (c :: chunk) :: chunks

/-- Rust `str::strip_suffix(c)`: `some` of the list with its final
character removed when that character is `c`, otherwise `none`. -/
def dropTrailing (c : Char) (l : List Char) : Option (List Char) :=
  match l.reverse with
  | [] => none
  | x :: rest => if x = c then some rest.reverse else none

/-- The per-chunk map of Rust `str::lines`: strip one trailing `'\n'`,
and when one was stripped also strip one trailing `'\r'` (so `\r\n` is a
single terminator, but a bare trailing `\r` with no newline is kept). -/
def linesMap (l : List Char) : List Char :=
  match dropTrailing '\n' l with
  | none => l
  | some l2 =>
    match dropTrailing '\r' l2 with
    | none => l2
    | some l3 => l3

/-- Rust `str::lines`: `split_inclusive('\n')` with each chunk sent
through `linesMap`. -/
def rustLines (s : List Char) : List (List Char) :=
  (splitInclusiveNL s).map linesMap

/-- `startsWith hay pat` decides whether `pat` is a prefix of `hay`
(Rust `str::starts_with`, used here as the building block of substring
search). -/
def startsWith : List Char → List Char → Bool
  | _, [] => true
  | [], _ :: _ => false
  | c :: t, p :: ps => c == p && startsWith t ps

/-- Rust `str::contains(needle)` on `hay`: `needle` occurs in `hay` as a
contiguous substring.  Naive left-to-right scan. -/
def containsSubstr : List Char → List Char → Bool
  | [], needle => needle.isEmpty
  | c :: t, needle => startsWith (c :: t) needle || containsSubstr t needle

/-- `search` from `src/lib.rs`:
`contents.lines().filter(|line| line.contains(query)).collect()`. -/
def search (query contents : List Char) : List (List Char) :=
  (rustLines contents).filter (fun line => containsSubstr line query)

/-- Rust `char::to_lowercase`: the Unicode full lowercase mapping of one
character, which may expand to several characters.  Implemented on the
Basic Latin, Latin-1 Supplement, Latin Extended-A, Greek and Cyrillic
blocks (this covers the one-to-many mapping `İ → i`+combining dot of
that range; characters outside the implemented blocks, which the
program would look up in the full Unicode table, are left unchanged). -/
def charToLowercase (c : Char) : List Char :=
  let n := c.toNat
  if 65 ≤ n ∧ n ≤ 90 then [Char.ofNat (n + 32)]
  else if (192 ≤ n ∧ n ≤ 222) ∧ n ≠ 215 then [Char.ofNat (n + 32)]
  else if n = 0x130 then [Char.ofNat 0x69, Char.ofNat 0x307]
  else if n = 0x178 then [Char.ofNat 0xFF]
  else if (0x100 ≤ n ∧ n ≤ 0x137) ∧ n % 2 = 0 then [Char.ofNat (n + 1)]
  else if (0x139 ≤ n ∧ n ≤ 0x148) ∧ n % 2 = 1 then [Char.ofNat (n + 1)]
  else if (0x14A ≤ n ∧ n ≤ 0x177) ∧ n % 2 = 0 then [Char.ofNat (n + 1)]
  else if (0x179 ≤ n ∧ n ≤ 0x17E) ∧ n % 2 = 1 then [Char.ofNat (n + 1)]
  else if n = 0x386 then [Char.ofNat 0x3AC]
  else if 0x388 ≤ n ∧ n ≤ 0x38A then [Char.ofNat (n + 37)]
  else if n = 0x38C then [Char.ofNat 0x3CC]
  else if n = 0x38E ∨ n = 0x38F then [Char.ofNat (n + 63)]
  else if (0x391 ≤ n ∧ n ≤ 0x3AB) ∧ n ≠ 0x3A2 then [Char.ofNat (n + 32)]
  else if 0x400 ≤ n ∧ n ≤ 0x40F then [Char.ofNat (n + 80)]
  else if 0x410 ≤ n ∧ n ≤ 0x42F then [Char.ofNat (n + 32)]
  else [c]

/-- The Unicode `Cased` property, on the blocks the lowercase model
implements (letters of Basic Latin, Latin-1, Latin Extended-A, Greek,
Cyrillic; characters of unimplemented blocks are treated as uncased).
Used by the `Final_Sigma` context test of `str::to_lowercase`. -/
def isCased (c : Char) : Bool :=
  let n := c.toNat
  decide ((65 ≤ n ∧ n ≤ 90) ∨ (97 ≤ n ∧ n ≤ 122) ∨
    n = 0xAA ∨ n = 0xB5 ∨ n = 0xBA ∨
    ((0xC0 ≤ n ∧ n ≤ 0xFF) ∧ n ≠ 0xD7 ∧ n ≠ 0xF7) ∨
    (0x100 ≤ n ∧ n ≤ 0x17F) ∨
    n = 0x386 ∨ (0x388 ≤ n ∧ n ≤ 0x38A) ∨ n = 0x38C ∨
    ((0x38E ≤ n ∧ n ≤ 0x3A1) ∧ n ≠ 0x3A2) ∨ (0x3A3 ≤ n ∧ n ≤ 0x3CE) ∨
    (0x400 ≤ n ∧ n ≤ 0x45F))

/-- The Unicode `Case_Ignorable` property, on a modelled subset
(apostrophe, full stop, colon, the Latin-1 modifier symbols, soft
hyphen, and the combining diacritical marks block). -/
def isCaseIgnorable (c : Char) : Bool :=
  let n := c.toNat
  decide (n = 0x27 ∨ n = 0x2E ∨ n = 0x3A ∨ n = 0x5E ∨ n = 0x60 ∨
    n = 0xA8 ∨ n = 0xAD ∨ n = 0xAF ∨ n = 0xB4 ∨ n = 0xB8 ∨
    (0x300 ≤ n ∧ n ≤ 0x36F))

/-- `case_ignorable_then_cased` from the std implementation of
`str::to_lowercase`: skip `Case_Ignorable` characters, then report
whether the first remaining character is `Cased`. -/
def caseIgnorableThenCased : List Char → Bool
  | [] => false
  | c :: rest => if isCaseIgnorable c then caseIgnorableThenCased rest else isCased c

/-- The character loop of Rust `str::to_lowercase`: every character is
sent through `char::to_lowercase`, except that an uppercase sigma `Σ`
in `Final_Sigma` position (the preceding characters, case-ignorables
skipped, end at a cased character, and the following ones do not begin
with one) becomes the final sigma `ς` instead of `σ`.  `revPre` is the
already-consumed text, nearest character first. -/
def toLowercaseGo (revPre : List Char) : List Char → List Char
  | [] => []
  | c :: rest =>
    (if c = 'Σ' then
      if caseIgnorableThenCased revPre ∧ ¬ caseIgnorableThenCased rest
      then ['ς'] else ['σ']
    else charToLowercase c) ++ toLowercaseGo (c :: revPre) rest

/-- Rust `str::to_lowercase`: the whole-string lowercase transformation.
It is not a per-character map: the `Σ`/`Final_Sigma` rule consults the
surrounding text. -/
def toLowercase (s : List Char) : List Char :=
  toLowercaseGo [] s

/-- `search_case_insensitive` from `src/lib.rs`: lowercase the query
once, then keep the lines whose lowercasing contains it. -/
def searchCaseInsensitive (query contents : List Char) : List (List Char) :=
  let q := toLowercase query
  (rustLines contents).filter (fun line => containsSubstr (toLowercase line) q)

/-- The two error values `Config::build` can return
(`"Didn't get a file path"` and `"Didn't get a query string"`). -/
inductive ConfigError where
  | missingFilePath : ConfigError
  | missingQuery : ConfigError
deriving DecidableEq, Repr

/-- The `Config` struct of `src/lib.rs`. -/
structure Config where
  query : String
  file_path : String
  ignore_case : Bool
deriving DecidableEq, Repr

/-- `Config::build` from `src/lib.rs`.  The argument iterator is a list;
`args.next()` discarding the program name is `drop 1`; the iterator is
then reversed, `file_path` and `query` are taken from its front (i.e.
the back of the original list), and the remaining elements are scanned
with a mutable flag initialised from the environment probe
(`envIgnoreCase` models `env::var("IGNORE_CASE").is_ok()`). -/
def Config.build (args : List String) (envIgnoreCase : Bool) :
    Except ConfigError Config :=
  match (args.drop 1).reverse with
  | [] => Except.error ConfigError.missingFilePath
  | [_] => Except.error ConfigError.missingQuery
  | file_path :: query :: rest =>
    Except.ok
      { query := query
        file_path := file_path
        ignore_case :=
          rest.foldl
            (fun acc arg => if arg == "--ignore-case" then true else acc)
            envIgnoreCase }

/-- The text of a line once its terminator is gone: one trailing
carriage return is removed when present (the second half of `linesMap`,
exposed for specification statements). -/
def dropTrailingCR (l : List Char) : List Char :=
  (dropTrailing '\r' l).getD l

/-! ## Helper lemmas -/

theorem startsWith_correct (hay pat : List Char) :
    startsWith hay pat = true ↔ pat <+: hay := by
  induction hay generalizing pat with
  | nil =>
    cases pat with
    | nil => simp [startsWith]
    | cons p ps => simp [startsWith]
  | cons c t ih =>
    cases pat with
    | nil => simp [startsWith]
    | cons p ps =>
      simp only [startsWith, Bool.and_eq_true, beq_iff_eq, ih]
      constructor
      · rintro ⟨rfl, u, rfl⟩
        exact ⟨u, rfl⟩
      · rintro ⟨u, hu⟩
        rw [List.cons_append] at hu
        obtain ⟨h1, h2⟩ := List.cons.inj hu
        exact ⟨h1.symm, u, h2⟩

theorem containsSubstr_correct (hay needle : List Char) :
    containsSubstr hay needle = true ↔ needle <:+: hay := by
  induction hay with
  | nil =>
    simp only [containsSubstr, List.isEmpty_iff]
    constructor
    · rintro rfl
      exact ⟨[], [], rfl⟩
    · rintro ⟨s, u, h⟩
      simpa using List.append_eq_nil.mp (List.append_eq_nil.mp h).1 |>.2
  | cons c t ih =>
    simp only [containsSubstr, Bool.or_eq_true, startsWith_correct, ih]
    constructor
    · rintro (⟨u, hu⟩ | ⟨s, u, rfl⟩)
      · exact ⟨[], u, hu⟩
      · exact ⟨c :: s, u, rfl⟩
    · rintro ⟨s, u, h⟩
      cases s with
      | nil => exact Or.inl ⟨u, by simpa using h⟩
      | cons c2 s2 =>
        obtain ⟨h1, h2⟩ := List.cons.inj h
        exact Or.inr ⟨s2, u, h2⟩

theorem containsSubstr_eq_decide (hay needle : List Char) :
    containsSubstr hay needle = decide (needle <:+: hay) := by
  by_cases h : needle <:+: hay
  · rw [(containsSubstr_correct hay needle).mpr h, decide_eq_true h]
  · rw [decide_eq_false h, ← Bool.not_eq_true]
    exact fun hc => h ((containsSubstr_correct hay needle).mp hc)

theorem containsSubstr_nil_needle (hay : List Char) :
    containsSubstr hay [] = true := by
  cases hay <;> rfl

/-- The character-wise part of the lowercase loop, as a standalone
function: the concatenation of `char::to_lowercase` over the string.
`toLowercase` agrees with it exactly on sigma-free text. -/
def lowerFlat : List Char → List Char
  | [] => []
  | c :: rest => charToLowercase c ++ lowerFlat rest

theorem toLowercaseGo_no_sigma (pre s : List Char) (h : 'Σ' ∉ s) :
    toLowercaseGo pre s = lowerFlat s := by
  induction s generalizing pre with
  | nil => rfl
  | cons c rest ih =>
    have hc : c ≠ 'Σ' := fun e => h (e ▸ List.mem_cons_self c rest)
    have hr : 'Σ' ∉ rest := fun m => h (List.mem_cons_of_mem _ m)
    rw [lowerFlat, toLowercaseGo, if_neg hc, ih _ hr]

theorem lowerFlat_append (a b : List Char) :
    lowerFlat (a ++ b) = lowerFlat a ++ lowerFlat b := by
  induction a with
  | nil => rfl
  | cons c a ih => simp [lowerFlat, ih]

/-- On sigma-free lines, case-sensitive containment implies containment
after lowercasing: without the context-sensitive `Σ` rule the lowercase
transformation concatenates over the infix decomposition. -/
theorem contains_toLowercase_no_sigma (l q : List Char) (hl : 'Σ' ∉ l)
    (hq : 'Σ' ∉ q) (h : containsSubstr l q = true) :
    containsSubstr (toLowercase l) (toLowercase q) = true := by
  rw [containsSubstr_correct] at h ⊢
  obtain ⟨u, v, rfl⟩ := h
  unfold toLowercase
  rw [toLowercaseGo_no_sigma [] _ hl, toLowercaseGo_no_sigma [] q hq,
    lowerFlat_append, lowerFlat_append]
  exact ⟨lowerFlat u, lowerFlat v, rfl⟩

theorem dropTrailing_concat (c : Char) (l : List Char) :
    dropTrailing c (l ++ [c]) = some l := by
  simp [dropTrailing]

theorem linesMap_concat (a : List Char) :
    linesMap (a ++ ['\n']) = dropTrailingCR a := by
  unfold linesMap dropTrailingCR
  rw [dropTrailing_concat]
  cases h : dropTrailing '\r' a <;> simp [h]

theorem splitInclusiveNL_cons_ne (c : Char) (rest : List Char) (hc : c ≠ '\n') :
    splitInclusiveNL (c :: rest)
      = match splitInclusiveNL rest with
        | [] => [[c]]
        | chunk :: chunks => (c :: chunk) :: chunks := by
  simp [splitInclusiveNL, if_neg hc]

theorem splitInclusiveNL_sep (a b : List Char) (h : '\n' ∉ a) :
    splitInclusiveNL (a ++ '\n' :: b) = (a ++ ['\n']) :: splitInclusiveNL b := by
  induction a with
  | nil => simp [splitInclusiveNL]
  | cons c a ih =>
    have hc : c ≠ '\n' := fun e => h (e ▸ List.mem_cons_self c a)
    have ha : '\n' ∉ a := fun m => h (List.mem_cons_of_mem _ m)
    rw [List.cons_append, splitInclusiveNL_cons_ne c _ hc, ih ha]
    rfl

theorem rustLines_sep (a b : List Char) (h : '\n' ∉ a) :
    rustLines (a ++ '\n' :: b) = dropTrailingCR a :: rustLines b := by
  unfold rustLines
  rw [splitInclusiveNL_sep a b h]
  simp [linesMap_concat]

theorem foldl_flag (l : List String) (b : Bool) :
    l.foldl (fun acc arg => if arg == "--ignore-case" then true else acc) b
      = (b || l.any (fun s => s == "--ignore-case")) := by
  induction l generalizing b with
  | nil => simp
  | cons x l ih =>
    rw [List.foldl_cons, ih, List.any_cons]
    by_cases hx : x == "--ignore-case" <;> simp [hx, Bool.or_assoc]

theorem build_reduce (args : List String) (env : Bool) (fp q : String)
    (zs : List String) (h : (args.drop 1).reverse = fp :: q :: zs) :
    Config.build args env =
      Except.ok
        { query := q
          file_path := fp
          ignore_case :=
            zs.foldl
              (fun acc arg => if arg == "--ignore-case" then true else acc)
              env } := by
  unfold Config.build
  rw [h]

theorem dropTrailing_eq_some (c : Char) (l r : List Char)
    (h : dropTrailing c l = some r) : l = r ++ [c] := by
  unfold dropTrailing at h
  split at h
  · exact absurd h (by simp)
  · rename_i x rest hrev
    split at h
    · rename_i hx
      have hr : rest.reverse = r := Option.some.inj h
      subst hx
      rw [← hr, ← List.reverse_cons, ← hrev, List.reverse_reverse]
    · exact absurd h (by simp)

theorem mem_of_mem_linesMap (chunk : List Char) (c : Char)
    (h : c ∈ linesMap chunk) : c ∈ chunk := by
  unfold linesMap at h
  split at h
  · exact h
  · rename_i l2 h1
    have hc2 : chunk = l2 ++ ['\n'] := dropTrailing_eq_some _ _ _ h1
    split at h
    · rw [hc2]
      exact List.mem_append_left _ h
    · rename_i l3 h2
      have hc3 : l2 = l3 ++ ['\r'] := dropTrailing_eq_some _ _ _ h2
      rw [hc2, hc3]
      exact List.mem_append_left _ (List.mem_append_left _ h)

theorem mem_of_mem_splitInclusiveNL (s : List Char) (chunk : List Char)
    (hc : chunk ∈ splitInclusiveNL s) : ∀ c ∈ chunk, c ∈ s := by
  induction s generalizing chunk with
  | nil => simp [splitInclusiveNL] at hc
  | cons x rest ih =>
    by_cases hx : x = '\n'
    · subst hx
      have he : splitInclusiveNL ('\n' :: rest) = ['\n'] :: splitInclusiveNL rest := by
        simp [splitInclusiveNL]
      rw [he] at hc
      rcases List.mem_cons.mp hc with rfl | hc
      · intro c hcc
        rcases List.mem_singleton.mp hcc with rfl
        exact List.mem_cons_self _ _
      · exact fun c hcc => List.mem_cons_of_mem _ (ih chunk hc c hcc)
    · rw [splitInclusiveNL_cons_ne x rest hx] at hc
      cases hsplit : splitInclusiveNL rest with
      | nil =>
        rw [hsplit] at hc
        rcases List.mem_singleton.mp hc with rfl
        intro c hcc
        rcases List.mem_singleton.mp hcc with rfl
        exact List.mem_cons_self _ _
      | cons ch chs =>
        rw [hsplit] at hc
        rcases List.mem_cons.mp hc with rfl | hc
        · intro c hcc
          rcases List.mem_cons.mp hcc with rfl | hcc
          · exact List.mem_cons_self _ _
          · exact List.mem_cons_of_mem _
              (ih ch (hsplit ▸ List.mem_cons_self ch chs) c hcc)
        · exact fun c hcc => List.mem_cons_of_mem _
            (ih chunk (hsplit ▸ List.mem_cons_of_mem _ hc) c hcc)

theorem mem_of_mem_rustLines (t l : List Char) (hl : l ∈ rustLines t) :
    ∀ c ∈ l, c ∈ t := by
  unfold rustLines at hl
  obtain ⟨chunk, hchunk, rfl⟩ := List.mem_map.mp hl
  exact fun c hc =>
    mem_of_mem_splitInclusiveNL t chunk hchunk c (mem_of_mem_linesMap chunk c hc)

theorem filter_sublist_mono {α : Type} (l : List α) (p q : α → Bool)
    (h : ∀ a ∈ l, p a = true → q a = true) :
    (l.filter p).Sublist (l.filter q) := by
  induction l with
  | nil => simp
  | cons x l ih =>
    have hx := h x (List.mem_cons_self x l)
    have hl := fun a ha => h a (List.mem_cons_of_mem _ ha)
    by_cases hp : p x = true
    · rw [List.filter_cons_of_pos hp, List.filter_cons_of_pos (hx hp)]
      exact (ih hl).cons₂ x
    · rw [List.filter_cons_of_neg (by simpa using hp)]
      by_cases hq2 : q x = true
      · rw [List.filter_cons_of_pos hq2]
        exact (ih hl).cons x
      · rw [List.filter_cons_of_neg (by simpa using hq2)]
        exact ih hl

/-! ## Claim theorems -/

/-- C1: `search Q T` returns exactly the lines of T (as produced by the
line splitting `rustLines`) that contain Q as a contiguous substring,
with no normalization, in the original line order (the result is the
containment filter of `rustLines T`, hence a sublist of it), and its
length is at most the number of lines of T. -/
theorem search_returns_exactly_matching_lines (q t : List Char) :
    search q t = (rustLines t).filter (fun l => decide (q <:+: l)) ∧
    (search q t).Sublist (rustLines t) ∧
    (search q t).length ≤ (rustLines t).length := by
  have hfil : search q t = (rustLines t).filter (fun l => decide (q <:+: l)) := by
    unfold search
    simp only [containsSubstr_eq_decide]
  refine ⟨hfil, ?_, ?_⟩
  · exact hfil ▸ List.filter_sublist _
  · exact List.Sublist.length_le (hfil ▸ List.filter_sublist _)

/-- C2: for an argument list with at least three elements — written
`a :: front ++ [q, fp]`, so `fp` is the last argument, `q` the
second-to-last, `a` the program name, and `front` the arguments strictly
before the query position that `Config::build` scans — the build
succeeds with `file_path = fp`, `query = q`, and `ignore_case` true iff
the environment variable is set or some element of `front` equals the
literal token `"--ignore-case"`; either signal alone suffices, neither
can force it false, and all other tokens in `front` are ignored. -/
theorem build_positional_from_end (a : String) (front : List String)
    (q fp : String) (env : Bool) :
    Config.build (a :: (front ++ [q, fp])) env =
      Except.ok
        { query := q
          file_path := fp
          ignore_case := env || front.any (fun s => s == "--ignore-case") } := by
  rw [build_reduce (a :: (front ++ [q, fp])) env fp q front.reverse (by simp)]
  rw [foldl_flag]
  simp

/-- C3: `Config::build` fails with `missingFilePath` exactly when the
argument list has no element beyond the program name (length ≤ 1), with
`missingQuery` exactly when it has exactly one element beyond the
program name (length = 2), and succeeds for every other argument count
(length ≥ 3). -/
theorem build_error_conditions (args : List String) (env : Bool) :
    (Config.build args env = Except.error ConfigError.missingFilePath ↔
      args.length ≤ 1) ∧
    (Config.build args env = Except.error ConfigError.missingQuery ↔
      args.length = 2) ∧
    (3 ≤ args.length → ∃ c, Config.build args env = Except.ok c) := by
  match args with
  | [] =>
    refine ⟨by simp [Config.build], by simp [Config.build], by simp⟩
  | [x] =>
    refine ⟨by simp [Config.build], by simp [Config.build], by simp⟩
  | [x, y] =>
    refine ⟨by simp [Config.build], by simp [Config.build], by simp⟩
  | x :: y :: z :: rest =>
    rcases hrev : (y :: z :: rest).reverse with _ | ⟨fp, _ | ⟨q, zs⟩⟩
    · have := congrArg List.length hrev
      simp at this
    · have := congrArg List.length hrev
      simp at this
    · have hb := build_reduce (x :: y :: z :: rest) env fp q zs (by simpa using hrev)
      refine ⟨?_, ?_, fun _ => ⟨_, hb⟩⟩
      · rw [hb]
        simp
      · rw [hb]
        simp

/-- C3 witness at concrete inputs: `["prog"]` yields `missingFilePath`,
`["prog", "onlyone"]` yields `missingQuery`, and three arguments
succeed. -/
theorem build_error_conditions_witness :
    Config.build ["prog"] false = Except.error ConfigError.missingFilePath ∧
    Config.build ["prog", "onlyone"] false
      = Except.error ConfigError.missingQuery ∧
    ∃ c, Config.build ["prog", "duct", "poem.txt"] false = Except.ok c :=
  ⟨((build_error_conditions ["prog"] false).1).mpr (by decide),
   ((build_error_conditions ["prog", "onlyone"] false).2.1).mpr (by decide),
   ((build_error_conditions ["prog", "duct", "poem.txt"] false).2.2) (by decide)⟩

/-- C4: `search_case_insensitive Q T` splits and orders lines exactly as
`search` does (it is the filter of the same `rustLines T`, and a sublist
of it), keeps exactly the lines whose whole-string lowercasing contains
the whole-string lowercasing of Q as a substring, and returns the
original, non-lowercased line text (the kept elements are lines of
`rustLines T` themselves). -/
theorem search_case_insensitive_exact (q t : List Char) :
    searchCaseInsensitive q t =
      (rustLines t).filter
        (fun l => decide (toLowercase q <:+: toLowercase l)) ∧
    (searchCaseInsensitive q t).Sublist (rustLines t) := by
  have hfil : searchCaseInsensitive q t =
      (rustLines t).filter
        (fun l => decide (toLowercase q <:+: toLowercase l)) := by
    unfold searchCaseInsensitive
    simp only [containsSubstr_eq_decide]
  exact ⟨hfil, hfil ▸ List.filter_sublist _⟩

/-- C5: both search functions split contents with `\n` as separator and
treat `\r\n` as a single terminator (the carriage return before the
separator is stripped by `dropTrailingCR`), and a trailing terminator
does not produce an extra empty trailing line (a text ending in one
newline has exactly the one line before it). -/
theorem line_splitting_terminators (a b q : List Char) (h : '\n' ∉ a) :
    rustLines (a ++ '\n' :: b) = dropTrailingCR a :: rustLines b ∧
    rustLines (a ++ ['\n']) = [dropTrailingCR a] ∧
    search q (a ++ '\n' :: b) =
      List.filter (fun l => containsSubstr l q)
        (dropTrailingCR a :: rustLines b) ∧
    searchCaseInsensitive q (a ++ '\n' :: b) =
      List.filter
        (fun l => containsSubstr (toLowercase l) (toLowercase q))
        (dropTrailingCR a :: rustLines b) := by
  have h1 := rustLines_sep a b h
  have h2 : rustLines (a ++ ['\n']) = [dropTrailingCR a] := by
    have := rustLines_sep a [] h
    simpa [rustLines, splitInclusiveNL] using this
  refine ⟨h1, h2, ?_, ?_⟩
  · unfold search
    rw [h1]
  · unfold searchCaseInsensitive
    rw [h1]

/-- C5 witness at a concrete input: `"x\r\ny"` splits into `["x", "y"]`
(the `\r` stripped with the terminator) and `"x\r\n"` yields the single
line `"x"`. -/
theorem line_splitting_terminators_witness :
    rustLines (['x', '\r'] ++ '\n' :: ['y'])
      = dropTrailingCR ['x', '\r'] :: rustLines ['y'] ∧
    rustLines (['x', '\r'] ++ ['\n']) = [dropTrailingCR ['x', '\r']] ∧
    search ['x'] (['x', '\r'] ++ '\n' :: ['y']) =
      List.filter (fun l => containsSubstr l ['x'])
        (dropTrailingCR ['x', '\r'] :: rustLines ['y']) ∧
    searchCaseInsensitive ['x'] (['x', '\r'] ++ '\n' :: ['y']) =
      List.filter
        (fun l => containsSubstr (toLowercase l) (toLowercase ['x']))
        (dropTrailingCR ['x', '\r'] :: rustLines ['y']) :=
  line_splitting_terminators ['x', '\r'] ['y'] ['x'] (by decide)

/-- C6: the empty query matches every line: `search` and
`search_case_insensitive` with query `[]` return all lines of the
contents unchanged. -/
theorem empty_query_matches_all (t : List Char) :
    search [] t = rustLines t ∧ searchCaseInsensitive [] t = rustLines t := by
  constructor
  · unfold search
    rw [List.filter_eq_self]
    intro l _
    exact containsSubstr_nil_needle l
  · unfold searchCaseInsensitive
    rw [List.filter_eq_self]
    intro l _
    exact containsSubstr_nil_needle (toLowercase l)

/-- C7 counterexample: for the query `"ΑΣ"` and the text `"ΑΣΒ"` — the
query's characters occur in the text verbatim, so query and text share
characters with no case difference at all — `search` returns one line
but `search_case_insensitive` returns none: `"ΑΣ"` lowercases to `"ας"`
(word-final sigma) while `"ΑΣΒ"` lowercases to `"ασβ"` (non-final
sigma), and `"ας"` is not a substring of `"ασβ"`.  The claimed count
inequality fails. -/
theorem case_insensitive_count_counterexample :
    ¬ ((search ['Α', 'Σ'] ['Α', 'Σ', 'Β']).length ≤
       (searchCaseInsensitive ['Α', 'Σ'] ['Α', 'Σ', 'Β']).length) := by
  decide

/-- C7 amended: for all queries and texts in which the uppercase sigma
`Σ` — the one character the lowercase transformation treats
context-sensitively — does not occur, the case-insensitive search
returns at least as many lines as the case-sensitive one: on sigma-free
text lowercasing concatenates character-wise and so preserves substring
containment. -/
theorem case_insensitive_count_ge_no_sigma (q t : List Char)
    (hq : 'Σ' ∉ q) (ht : 'Σ' ∉ t) :
    (search q t).length ≤ (searchCaseInsensitive q t).length := by
  refine List.Sublist.length_le ?_
  show (List.filter (fun line => containsSubstr line q) (rustLines t)).Sublist
    (List.filter
      (fun line => containsSubstr (toLowercase line) (toLowercase q))
      (rustLines t))
  refine filter_sublist_mono (rustLines t) _ _ ?_
  intro l hlmem hl
  have hls : 'Σ' ∉ l := fun m => ht (mem_of_mem_rustLines t l hlmem 'Σ' m)
  exact contains_toLowercase_no_sigma l q hls hq hl

/-- C7 amended witness at a concrete input: query `"aB"` on text
`"aB\nAb"` (sigma-free) gives one case-sensitive match and two
case-insensitive matches. -/
theorem case_insensitive_count_ge_no_sigma_witness :
    (search ['a', 'B'] ['a', 'B', '\n', 'A', 'b']).length ≤
      (searchCaseInsensitive ['a', 'B'] ['a', 'B', '\n', 'A', 'b']).length :=
  case_insensitive_count_ge_no_sigma ['a', 'B'] ['a', 'B', '\n', 'A', 'b']
    (by decide) (by decide)

/-- C8: when the query occurs in no line of the contents (under the
respective function's containment policy), `search` and
`search_case_insensitive` return the empty list — an empty result
sequence, never an error (both embedded functions are total by
construction). -/
theorem no_match_yields_empty (q t : List Char) :
    ((∀ l ∈ rustLines t, ¬ q <:+: l) → search q t = []) ∧
    ((∀ l ∈ rustLines t, ¬ toLowercase q <:+: toLowercase l) →
      searchCaseInsensitive q t = []) := by
  constructor
  · intro h
    unfold search
    rw [List.filter_eq_nil_iff]
    intro l hl
    rw [Bool.not_eq_true, containsSubstr_eq_decide, decide_eq_false_iff_not]
    exact h l hl
  · intro h
    unfold searchCaseInsensitive
    rw [List.filter_eq_nil_iff]
    intro l hl
    rw [Bool.not_eq_true, containsSubstr_eq_decide, decide_eq_false_iff_not]
    exact h l hl

/-- C8 witness at a concrete input: the query `"z"` occurs in no line of
`"a\nb"`, and both searches return the empty list. -/
theorem no_match_yields_empty_witness :
    search ['z'] ['a', '\n', 'b'] = [] ∧
    searchCaseInsensitive ['z'] ['a', '\n', 'b'] = [] :=
  ⟨(no_match_yields_empty ['z'] ['a', '\n', 'b']).1 (by decide),
   (no_match_yields_empty ['z'] ['a', '\n', 'b']).2 (by decide)⟩

/-- C9: the first element of the argument list (the program name) never
influences `Config::build`: two argument lists differing only in their
first element produce identical results in every environment state. -/
theorem first_argument_never_inspected (a b : String) (rest : List String)
    (env : Bool) :
    Config.build (a :: rest) env = Config.build (b :: rest) env := rfl

/-- C10: the literal token `"--ignore-case"` in the last or
second-to-last position is consumed as `file_path` or `query` and does
not set `ignore_case`: with `["prog", "--ignore-case", "f.txt"]` the
query is the string `"--ignore-case"` and `ignore_case` equals the
environment signal alone; with `["prog", "--ignore-case"]` the build
fails with `missingQuery`, not `missingFilePath`. -/
theorem flag_consumed_positionally (env : Bool) :
    Config.build ["prog", "--ignore-case", "f.txt"] env =
      Except.ok
        { query := "--ignore-case", file_path := "f.txt",
          ignore_case := env } ∧
    Config.build ["prog", "--ignore-case"] env =
      Except.error ConfigError.missingQuery :=
  ⟨rfl, rfl⟩

end Lilgrep
